import Mathlib

/-!
A verification development for the tracktorio simulation core
(`src/main.rs`).  The embedding translates the pure simulation logic —
the track graph and its router, the factory resource-flow engine, the
train scheduler's load/unload transfer and target selection, and the
kinematic advance of a train head — into executable Lean definitions.

Modelling conventions:
* `f32` quantities (positions, buffer amounts, cargo, time) are
  modelled as rationals `ℚ`; rational division by zero yields `0`
  where IEEE floats would give `±inf`/NaN, so theorems that divide
  carry positivity hypotheses on the divisors.
* `Id(u64)` identifiers are natural numbers; resource-name strings are
  modelled by the numeric key the resource registry de-duplicates them
  into (no claim concerns the registry itself).
* keyed `Collection<T>` containers become lists; `get`/`get_mut` by id
  become first-match lookup/update, matching the unique-key semantics
  of the source container.
* `thread_rng`-driven random selection (`IteratorRandom::choose`) is
  modelled by an explicit choice-function parameter `pick`.
* looking up an id absent from its container panics in the source
  (`unwrap`); the embedding totalises those lookups with defaults, and
  every theorem instantiates only existing ids.
-/

namespace Tracktorio

/-- `Id(u64)`: process-unique identifier, modelled as a natural number. -/
abbrev Id := ℕ

/-- `vec2<f32>`, with rational coordinates. -/
structure Vec2 where
  x : ℚ
  y : ℚ
deriving DecidableEq

/-- `enum IoType { Input, Output }`. -/
inductive IoType where
  | Input
  | Output
deriving DecidableEq

/-- `TrackPoint { from, to, ratio }` (`from` and `to` are reserved
words here, so the fields are called `fromN` and `toN`). -/
structure TrackPoint where
  fromN : Id
  toN : Id
  ratio : ℚ
deriving DecidableEq

/-- `TrackNode { id, pos, connections }`; the `HashSet<Id>` of
neighbours is modelled as a list. -/
structure TrackNode where
  id : Id
  pos : Vec2
  connections : List Id
deriving DecidableEq

/-- `Tracks { nodes: Collection<TrackNode> }`. -/
structure Tracks where
  nodes : List TrackNode
deriving DecidableEq

/-- `self.nodes.get(&i)`: first-match lookup by id. -/
def Tracks.get (t : Tracks) (i : Id) : Option TrackNode :=
  t.nodes.find? (fun n => n.id == i)

/-- Position of a node; the source `unwrap`s, the embedding defaults to
the origin (theorems only use existing ids). -/
def Tracks.posOr (t : Tracks) (i : Id) : Vec2 :=
  ((t.get i).map (fun n => n.pos)).getD ⟨0, 0⟩

/-- Neighbour list of a node (empty for a missing id). -/
def Tracks.adj (t : Tracks) (i : Id) : List Id :=
  ((t.get i).map (fun n => n.connections)).getD []

/-- `Tracks::segment_length`, parametrised by the length function `len`
standing for `fun p q => (p - q).len()` on `vec2<f32>`. -/
def Tracks.segment_length (t : Tracks) (len : Vec2 → Vec2 → ℚ) (a b : Id) : ℚ :=
  len (t.posOr a) (t.posOr b)

/-- Total length of a node sequence: the accumulated cost of the
successor edges used by `Tracks::pathfind`, each edge weighted
`(v.pos - u.pos).len()` (here `len (posOr v) (posOr u)`). -/
def Tracks.pathCost (t : Tracks) (len : Vec2 → Vec2 → ℚ) : List Id → ℚ
  | a :: b :: rest => len (t.posOr a) (t.posOr b) + Tracks.pathCost t len (b :: rest)
  | _ => 0

/-- Enumeration of the duplicate-free node sequences that start at
`cur`, end at `toN`, follow `adj`, and otherwise only visit nodes of
`allowed` (each at most once).  `fuel` bounds the recursion depth; any
`fuel ≥ allowed.length` is exhaustive. -/
def pathsAux (adj : Id → List Id) (toN : Id) :
    ℕ → List Id → Id → List (List Id)
  | 0, _, cur => if cur = toN then [[cur]] else []
  | fuel + 1, allowed, cur =>
    if cur = toN then [[cur]]
    else
      ((adj cur).filter (fun n => allowed.contains n)).flatMap
        (fun n => (pathsAux adj toN fuel (allowed.erase n) n).map
          (fun q => cur :: q))

/-- `Tracks::pathfind` (lines 182-197).  The source delegates to
`pathfinding::directed::astar::astar`, a third-party dependency, which
by its documented contract returns a minimal-total-cost path comprising
both the start and the goal node (`None` when the goal is unreachable);
the choice among equal-cost paths depends on iteration order and is
declared nondeterministic by the spec.  The contract is modelled
executably: enumerate every duplicate-free path from `fromN` to `toN`
and return one of minimal total edge length. -/
def Tracks.pathfind (t : Tracks) (len : Vec2 → Vec2 → ℚ) (fromN toN : Id) :
    Option (List Id) :=
  let allowed := (t.nodes.map (fun n => n.id)).erase fromN
  (pathsAux t.adj toN allowed.length allowed fromN).argmin (t.pathCost len)

/-- `FactoryIoConfig { type, resource, speed }` (one entry of a factory
type's `io` list; the resource name is a numeric registry key here). -/
structure FactoryIoConfig where
  ty : IoType
  resource : ℕ
  speed : Option ℚ
deriving DecidableEq

/-- `FactoryIo { ty, node, resource, amount, pos }`; `amount` is
`Some` iff a rate was configured at spawn time. -/
structure FactoryIo where
  ty : IoType
  node : Id
  resource : Id
  amount : Option ℚ
  pos : Vec2
deriving DecidableEq

/-- `Factory { id, ty, pos, io }`; `ty` indexes the factory-type
catalog. -/
structure Factory where
  id : Id
  ty : ℕ
  pos : Vec2
  io : List FactoryIo
deriving DecidableEq

/-- The loop body of the `max_input_dt` fold of `Game::update`
(lines 403-409). -/
def flowStep (acc : ℚ) (p : FactoryIo × FactoryIoConfig) : ℚ :=
  if p.1.ty = IoType.Input then
    match p.1.amount, p.2.speed with
    | some amount, some speed => min acc (amount / speed)
    | _, _ => acc
  else acc

/-- The `max_input_dt` fold of `Game::update` (lines 402-409): start
from `delta_time` and for every rated input port take the minimum with
`amount / speed`. -/
def flowLimit (cfg : List FactoryIoConfig) (dt : ℚ) (f : Factory) : ℚ :=
  (f.io.zip cfg).foldl flowStep dt

/-- The per-factory flow step of `Game::update` (lines 400-424).  The
source iterates `factory.io.iter_mut().zip(&factory_type.io)`, which
touches only the zipped prefix; ports beyond the shorter list keep
their state (hence the `++ drop` tail). -/
def flowFactory (cfg : List FactoryIoConfig) (dt : ℚ) (f : Factory) : Factory :=
  let maxInputDt := flowLimit cfg dt f
  { f with io :=
      ((f.io.zip cfg).map (fun p =>
        match p.1.ty with
        | IoType.Input =>
          match p.1.amount, p.2.speed with
          | some amount, some speed =>
            { p.1 with amount := some (max (amount - speed * maxInputDt) 0) }
          | _, _ => p.1
        | IoType.Output =>
          match p.1.amount, p.2.speed with
          | some amount, some speed =>
            { p.1 with amount := some (amount + speed * maxInputDt) }
          | _, _ => p.1))
      ++ f.io.drop (f.io.zip cfg).length }

/-- Spec-side description of the flow increment (spec section 4.3): with
a single time slice `L`, input ports subtract `rate*L` clamped at `≥ 0`,
output ports add `rate*L`, rate-less ports are untouched. -/
def flowIoSpec (L : ℚ) (p : FactoryIo × FactoryIoConfig) : FactoryIo :=
  match p.1.ty, p.1.amount, p.2.speed with
  | IoType.Input, some a, some s => { p.1 with amount := some (max (a - s * L) 0) }
  | IoType.Output, some a, some s => { p.1 with amount := some (a + s * L) }
  | _, _, _ => p.1

/-- The `bufferAmount/rate` bound a rated input port contributes to the
spec-side `limitDt` (none for output or rate-less ports). -/
def flowContrib (p : FactoryIo × FactoryIoConfig) : Option ℚ :=
  if p.1.ty = IoType.Input then
    match p.1.amount, p.2.speed with
    | some amount, some speed => some (amount / speed)
    | _, _ => none
  else none

/-- Spec-side `limitDt` (spec section 4.3): `deltaTime` reduced by
`bufferAmount/rate` for every rated input port. -/
def limitDtSpec (cfg : List FactoryIoConfig) (dt : ℚ) (f : Factory) : ℚ :=
  ((f.io.zip cfg).filterMap flowContrib).foldr min dt

theorem flowStep_eq_contrib (acc : ℚ) (p : FactoryIo × FactoryIoConfig) :
    flowStep acc p = (flowContrib p).elim acc (min acc) := by
  cases hty : p.1.ty <;> cases ha : p.1.amount <;> cases hs : p.2.speed <;>
    simp [flowStep, flowContrib, hty, ha, hs]

theorem foldr_min_min (x a : ℚ) : ∀ l : List ℚ,
    l.foldr min (min a x) = min x (l.foldr min a)
  | [] => min_comm a x
  | y :: l => by
    simp only [List.foldr_cons, foldr_min_min x a l]
    exact min_left_comm y x (l.foldr min a)

theorem flowLimit_eq_limitDtSpec (cfg : List FactoryIoConfig) (dt : ℚ) (f : Factory) :
    flowLimit cfg dt f = limitDtSpec cfg dt f := by
  unfold flowLimit limitDtSpec
  generalize f.io.zip cfg = l
  induction l generalizing dt with
  | nil => rfl
  | cons p l ih =>
    simp only [List.foldl_cons, List.filterMap_cons, flowStep_eq_contrib]
    cases hc : flowContrib p with
    | none => simpa using ih dt
    | some x =>
      simp only [Option.elim, List.foldr_cons]
      rw [ih (min dt x)]
      exact foldr_min_min x dt _

/-- `IoId { factory, io }`: a port address (factory id, port index). -/
structure IoId where
  factory : Id
  io : ℕ
deriving DecidableEq

/-- `Train`: the `VecDeque<Id>` of tail nodes is a list with the most
recent node first; `path_from_target` is the remaining route stored
from the target back to the head (consumed from its end). -/
structure Train where
  id : Id
  resource : Id
  amount : ℚ
  length : ℚ
  head : TrackPoint
  tail_nodes : List Id
  path_from_target : Option (List Id)
  target : Option IoId
deriving DecidableEq

/-- `self.factories.get_mut(&i.factory).unwrap().io[i.io]` as a read:
first-match factory lookup, then port by index. -/
def getIo (fs : List Factory) (i : IoId) : Option FactoryIo :=
  (fs.find? (fun f => f.id == i.factory)).bind (fun f => f.io[i.io]?)

/-- Replace the `amount` of the port at index `idx` by `g` applied to
it (identity when the index is out of range). -/
def updateIoAmount (l : List FactoryIo) (idx : ℕ) (g : Option ℚ → Option ℚ) :
    List FactoryIo :=
  match l[idx]? with
  | some io => l.set idx { io with amount := g io.amount }
  | none => l

/-- Apply `g` to the addressed port's amount in the first factory whose
id matches (the source container is keyed by unique id). -/
def updateFactories : List Factory → IoId → (Option ℚ → Option ℚ) → List Factory
  | [], _, _ => []
  | f :: rest, i, g =>
    if f.id = i.factory then { f with io := updateIoAmount f.io i.io g } :: rest
    else f :: updateFactories rest i g

/-- The default tolerance of batbox's `Approx::approx_eq` used by the
source (`train.amount.approx_eq(&0.0)` and
`capacity.approx_eq(&train.amount)`): absolute difference below
`1e-9`. -/
def EPS : ℚ := 1 / 1000000000

/-- `a.approx_eq(&b)` for `f32`: `|a - b| < EPS`. -/
def approxEq (a b : ℚ) : Bool :=
  decide (|a - b| < EPS)

/-- The cargo-transfer step of `Game::update` (lines 430-463) for one
train: returns the updated train, the updated factories and the `go`
flag.  A train with no target sets `go` and changes nothing; a missing
target port would panic in the source (modelled as a stall, never
instantiated by a theorem). -/
def transferPhase (cap ls dt : ℚ) (fs : List Factory) (train : Train) :
    Train × List Factory × Bool :=
  match train.target with
  | none => (train, fs, true)
  | some ioid =>
    match getIo fs ioid with
    | none => (train, fs, false)
    | some io =>
      match io.ty with
      | IoType.Input =>
        let unload := min train.amount (ls * dt)
        let train' := { train with amount := train.amount - unload }
        let fs' := updateFactories fs ioid (fun a => a.map (fun x => x + unload))
        (train', fs', approxEq train'.amount 0)
      | IoType.Output =>
        let load0 := min (cap - train.amount) (ls * dt)
        let load := match io.amount with
          | some a => min load0 a
          | none => load0
        let train' := { train with amount := train.amount + load }
        let fs' := updateFactories fs ioid (fun a => a.map (fun x => x - load))
        (train', fs', approxEq cap train'.amount)

/-- The flattened, filtered port candidate list of the target-selection
step (lines 471-482): all `(factoryId, portIndex, port)` triples
matching the wanted direction and the train's resource. -/
def portCandidates (lookFor : IoType) (res : Id) (fs : List Factory) :
    List (Id × ℕ × FactoryIo) :=
  (fs.flatMap (fun f => f.io.enum.map (fun p => (f.id, p.1, p.2)))).filter
    (fun c => decide (c.2.2.ty = lookFor ∧ c.2.2.resource = res))

/-- Maximal suffix of `to`-entries removed from the end of the route:
the `while path.last() == Some(&head.to) { path.pop() }` loop of
lines 499-501, written as reverse/dropWhile/reverse. -/
def stripTo (toN : Id) (p : List Id) : List Id :=
  (p.reverse.dropWhile (fun x => x == toN)).reverse

/-- The tail-truncation loop of `Game::update` (lines 520-527): walk
the tail pairwise from the front; at pair `i`, if the length covered so
far already exceeds the body length, keep only the first `i + 1` nodes. -/
def truncAux (seg : Id → Id → ℚ) (bodyLen : ℚ) : ℚ → List Id → List Id
  | _, [] => []
  | _, [a] => [a]
  | cov, a :: b :: rest =>
    if cov > bodyLen then [a]
    else a :: truncAux seg bodyLen (cov + seg a b) (b :: rest)

/-- The target-selection step of `Game::update` (lines 465-492), run
when `go` is set: choose a direction by cargo level, `pick` a random
matching port, and commit it as target only if a route exists. -/
def selectionPhase (cap : ℚ)
    (pick : List (Id × ℕ × FactoryIo) → Option (Id × ℕ × FactoryIo))
    (t : Tracks) (len : Vec2 → Vec2 → ℚ) (fs : List Factory) (train : Train) :
    Train :=
  let lookFor := if train.amount > cap / 2 then IoType.Input else IoType.Output
  match pick (portCandidates lookFor train.resource fs) with
  | some c =>
    match t.pathfind len c.2.2.node train.head.toN with
    | some path => { train with path_from_target := some path, target := some ⟨c.1, c.2.1⟩ }
    | none => { train with path_from_target := none }
  | none => train

/-- One iteration of the first per-train loop of `Game::update`
(lines 426-493): skip trains that are mid-route, otherwise transfer
cargo and, when the transfer is done or there was no target, select a
new target. -/
def trainSchedStep (cap ls dt : ℚ)
    (pick : List (Id × ℕ × FactoryIo) → Option (Id × ℕ × FactoryIo))
    (t : Tracks) (len : Vec2 → Vec2 → ℚ) (fs : List Factory) (train : Train) :
    Train × List Factory :=
  if train.path_from_target.isSome then (train, fs)
  else
    let r := transferPhase cap ls dt fs train
    if r.2.2 then (selectionPhase cap pick t len r.2.1 r.1, r.2.1)
    else (r.1, r.2.1)

/-- The whole first per-train loop, threading the factory list through
the trains in order. -/
def schedPhase (cap ls dt : ℚ)
    (pick : List (Id × ℕ × FactoryIo) → Option (Id × ℕ × FactoryIo))
    (t : Tracks) (len : Vec2 → Vec2 → ℚ) :
    List Train → List Factory → List Train × List Factory
  | [], fs => ([], fs)
  | tr :: rest, fs =>
    let r := trainSchedStep cap ls dt pick t len fs tr
    let rr := schedPhase cap ls dt pick t len rest r.2
    (r.1 :: rr.1, rr.2)

/-- The kinematic-advance loop body of `Game::update` (lines 495-532)
for one train, with `seg a b` standing for
`self.tracks.segment_length(a, b)`.  The head advances by
`speed * dt`; on crossing the edge end it snaps to the far node,
pushes it onto the tail, moves onto the edge towards the next route
node popped from the end of the path (truncating the tail), and on an
exhausted route clamps the ratio to 1 and clears the route. -/
def kinStep (speed dt : ℚ) (seg : Id → Id → ℚ) (train : Train) : Train :=
  match train.path_from_target with
  | none => train
  | some path0 =>
    let path := stripTo train.head.toN path0
    let curLen := seg train.head.fromN train.head.toN
    let prog := train.head.ratio * curLen + speed * dt
    if prog < curLen then
      { train with head := { train.head with ratio := prog / curLen },
                   path_from_target := some path }
    else
      match path.getLast? with
      | some next =>
        let nextLen := seg train.head.toN next
        let nextProg := prog - curLen
        { train with
            head := ⟨train.head.toN, next, nextProg / nextLen⟩,
            tail_nodes := truncAux seg train.length nextProg
              (train.head.toN :: train.tail_nodes),
            path_from_target := some path.dropLast }
      | none =>
        { train with head := { train.head with ratio := 1 },
                     path_from_target := none }

/-- The factory-flow loop of `Game::update` (lines 400-424) over all
factories; `self.factory_types[factory.ty]` panics on an out-of-range
catalog index in the source, modelled by an empty (hence inert) config
list and never instantiated by a theorem. -/
def flowPhase (types : List (List FactoryIoConfig)) (dt : ℚ) (fs : List Factory) :
    List Factory :=
  fs.map (fun f => flowFactory ((types.get? f.ty).getD []) dt f)

/-- The simulation-relevant state of `Game`. -/
structure Game where
  tracks : Tracks
  trains : List Train
  factories : List Factory

/-- `Game::update` (lines 385-533) restricted to the simulation core:
factory flow, then per-train transfer/target selection, then the
kinematic advance.  `types`, `cap`, `ls` and `speed` are the immutable
catalog and config scalars (`factory_types`, `config.train.capacity`,
`config.test.train_load_speed`, `config.test.train_speed`); `pick`
models the `thread_rng` choice and `len` the `vec2<f32>` distance. -/
def Game.update (types : List (List FactoryIoConfig)) (cap ls speed : ℚ)
    (pick : List (Id × ℕ × FactoryIo) → Option (Id × ℕ × FactoryIo))
    (len : Vec2 → Vec2 → ℚ) (g : Game) (dt : ℚ) : Game :=
  let fs1 := flowPhase types dt g.factories
  let r := schedPhase cap ls dt pick g.tracks len g.trains fs1
  { g with
      trains := r.1.map (kinStep speed dt (fun a b => g.tracks.segment_length len a b)),
      factories := r.2 }

/-! ## Concrete instances used by scenario conjuncts, counterexamples
and witnesses. -/

/-- Scenario 2 factory: input port (ore, rate 1, buffer 0) and output
port (metal, rate 1/2, buffer 7). -/
def oreFactory : Factory :=
  ⟨0, 0, ⟨0, 0⟩,
    [⟨IoType.Input, 1, 0, some 0, ⟨5, 0⟩⟩, ⟨IoType.Output, 2, 1, some 7, ⟨-5, 0⟩⟩]⟩

/-- Scenario 2 factory-type config: Input rate 1, Output rate 1/2. -/
def oreCfg : List FactoryIoConfig :=
  [⟨IoType.Input, 0, some 1⟩, ⟨IoType.Output, 1, some (1 / 2)⟩]

theorem flowFactory_io_spec (cfg : List FactoryIoConfig) (dt : ℚ) (f : Factory) :
    (flowFactory cfg dt f).io =
      (f.io.zip cfg).map (flowIoSpec (limitDtSpec cfg dt f))
        ++ f.io.drop (f.io.zip cfg).length := by
  show ((f.io.zip cfg).map _) ++ _ = _
  rw [flowLimit_eq_limitDtSpec]
  congr 1
  apply List.map_congr_left
  intro p _
  cases hty : p.1.ty <;> cases ha : p.1.amount <;> cases hs : p.2.speed <;>
    simp [flowIoSpec, hty, ha, hs]

/-- Claim C2: per factory and tick the flow engine computes a single
`limitDt` — `deltaTime` lowered by `bufferAmount/rate` over all rated
input ports — then subtracts `rate*limitDt` from every rated input
buffer clamped at `≥ 0`, adds `rate*limitDt` to every rated output
buffer, and leaves rate-less ports untouched; in the ore/metal scenario
a zero input buffer forces `limitDt = 0`, so after `tick(2.0)` the
input buffer is still `0` and the output buffer is unchanged. -/
theorem C2_flow_engine :
    (∀ (cfg : List FactoryIoConfig) (dt : ℚ) (f : Factory),
      flowLimit cfg dt f = limitDtSpec cfg dt f ∧
      (flowFactory cfg dt f).io =
        (f.io.zip cfg).map (flowIoSpec (limitDtSpec cfg dt f))
          ++ f.io.drop (f.io.zip cfg).length) ∧
    (flowFactory oreCfg 2 oreFactory).io.map (fun io => io.amount)
      = [some 0, some 7] := by
  refine ⟨fun cfg dt f => ⟨flowLimit_eq_limitDtSpec cfg dt f, flowFactory_io_spec cfg dt f⟩, ?_⟩
  norm_num [flowFactory, flowLimit, flowStep, oreCfg, oreFactory]

/-- The trailing nodes paired with their cumulative distance from the
head: the first node is at distance `c0` (the head's progress on its
current edge) and each further node adds its edge length. -/
def withDists (seg : Id → Id → ℚ) : ℚ → List Id → List (Id × ℚ)
  | _, [] => []
  | c, [a] => [(a, c)]
  | c, a :: b :: rest => (a, c) :: withDists seg (c + seg a b) (b :: rest)

/-- Spec-side truncation (spec section 4.4 / scenario 4): retain nodes
up through the first one whose cumulative distance exceeds the body
length, discarding every later node. -/
def retainThrough (bodyLen : ℚ) : List (Id × ℚ) → List Id
  | [] => []
  | (a, d) :: rest => if d > bodyLen then [a] else a :: retainThrough bodyLen rest

/-- Scenario 4 edge lengths: trailing nodes `0,1,2,3` at cumulative
distances `5, 12, 20, 30` from the head (head progress 5, edges 7, 8,
10). -/
def exSeg : Id → Id → ℚ := fun a b =>
  match a, b with
  | 0, 1 => 7
  | 1, 2 => 8
  | _, _ => 10

theorem truncAux_eq_retainThrough (seg : Id → Id → ℚ) (bodyLen : ℚ) :
    ∀ (c : ℚ) (ns : List Id),
      truncAux seg bodyLen c ns = retainThrough bodyLen (withDists seg c ns) := by
  intro c ns
  induction ns generalizing c with
  | nil => rfl
  | cons a tl ih =>
    cases tl with
    | nil =>
      by_cases h : c > bodyLen <;> simp [truncAux, withDists, retainThrough, h]
    | cons b rest =>
      by_cases h : c > bodyLen <;>
        simp [truncAux, withDists, retainThrough, h, ih (c + seg a b)]

/-- Claim C7: trailing-body truncation walks the trailing nodes
pairwise from the front, accumulating edge length from the head's
progress on its current edge, retains nodes up through the first one
whose accumulated length exceeds `bodyLength` and discards every later
node; with cumulative distances `[5, 12, 20, 30]` and body length 15
the nodes at 5, 12 and 20 are retained and the node at 30 discarded. -/
theorem C7_tail_truncation :
    (∀ (seg : Id → Id → ℚ) (bodyLen c : ℚ) (ns : List Id),
      truncAux seg bodyLen c ns = retainThrough bodyLen (withDists seg c ns)) ∧
    truncAux exSeg 15 5 [0, 1, 2, 3] = [0, 1, 2] ∧
    withDists exSeg 5 [0, 1, 2, 3] = [(0, 5), (1, 12), (2, 20), (3, 30)] := by
  refine ⟨fun seg L c ns => truncAux_eq_retainThrough seg L c ns, ?_, ?_⟩ <;>
    norm_num [truncAux, withDists, exSeg]

/-- A factory with a single rated input port (buffer 0), used as an
unload target. -/
def inPort : FactoryIo := ⟨IoType.Input, 3, 7, some 0, ⟨1, 1⟩⟩

/-- The factory owning `inPort` (id 0). -/
def inPortFac : Factory := ⟨0, 0, ⟨0, 0⟩, [inPort]⟩

/-- A train unloading into `inPort`: capacity 10, load speed 5, cargo
`5 + 1/2000000000` — after one second of unloading, `1/2000000000`
cargo remains, strictly positive but within the `1e-9` tolerance. -/
def tr1 : Train := ⟨10, 7, 5 + 1 / 2000000000, 4, ⟨0, 0, 0⟩, [], none, some ⟨0, 0⟩⟩

theorem approx_zero_iff (amt lsdt : ℚ) :
    (approxEq (amt - min amt lsdt) 0 = true) ↔ amt < lsdt + EPS := by
  have hE : (0 : ℚ) < EPS := by norm_num [EPS]
  rcases le_total amt lsdt with h | h
  · rw [min_eq_left h]
    simp only [approxEq, sub_self, sub_zero, abs_zero, decide_eq_true_iff]
    exact iff_of_true hE (lt_of_le_of_lt h (lt_add_of_pos_right _ hE))
  · rw [min_eq_right h]
    simp only [approxEq, sub_zero, decide_eq_true_iff,
      abs_of_nonneg (sub_nonneg.2 h)]
    exact sub_lt_iff_lt_add.trans (by rw [add_comm])

theorem approx_cap_iff (cap amt' : ℚ) (h : amt' ≤ cap) :
    (approxEq cap amt' = true) ↔ cap - amt' < EPS := by
  simp only [approxEq, decide_eq_true_iff, abs_of_nonneg (sub_nonneg.2 h)]

/-- Claim C1 counterexample: the source tests "done" with batbox's
`approx_eq`, not exact equality.  Unloading `5 + 1/2000000000` units of
cargo at load speed 5 for one second leaves `1/2000000000 ≠ 0` cargo,
yet the transfer is marked done (`go = true`), contradicting the
claimed exact-zero arrival condition. -/
theorem C1_counterexample :
    (transferPhase 10 5 1 [inPortFac] tr1).2.2 = true ∧
    (transferPhase 10 5 1 [inPortFac] tr1).1.amount ≠ 0 := by
  constructor
  · norm_num [transferPhase, tr1, inPortFac, inPort, getIo, updateFactories,
      updateIoAmount, approxEq, EPS,
      abs_of_nonneg (by norm_num : (0 : ℚ) ≤ 1 / 2000000000)]
  · norm_num [transferPhase, tr1, inPortFac, inPort, getIo, updateFactories,
      updateIoAmount]

/-- Claim C1 (amended): with an active target and no active route, the
tick marks the transfer done exactly when the post-transfer cargo is
within the approximate-equality tolerance `EPS = 1e-9` of the boundary
— `|cargo| < EPS` after unloading into an Input (equivalently
`cargo_before < loadSpeed*dt + EPS`), `capacity - cargo < EPS` after
loading from an Output — rather than at exact equality. -/
theorem C1_amended :
    (∀ (cap ls dt : ℚ) (fs : List Factory) (tr : Train) (ioid : IoId) (io : FactoryIo),
      tr.target = some ioid → getIo fs ioid = some io → io.ty = IoType.Input →
      (transferPhase cap ls dt fs tr).1.amount = tr.amount - min tr.amount (ls * dt) ∧
      ((transferPhase cap ls dt fs tr).2.2 = true ↔ tr.amount < ls * dt + EPS)) ∧
    (∀ (cap ls dt : ℚ) (fs : List Factory) (tr : Train) (ioid : IoId) (io : FactoryIo)
      (b : ℚ),
      tr.target = some ioid → getIo fs ioid = some io → io.ty = IoType.Output →
      io.amount = some b →
      (transferPhase cap ls dt fs tr).1.amount
        = tr.amount + min (ls * dt) (min (cap - tr.amount) b) ∧
      ((transferPhase cap ls dt fs tr).2.2 = true ↔
        cap - (transferPhase cap ls dt fs tr).1.amount < EPS)) := by
  constructor
  · intro cap ls dt fs tr ioid io ht hio hty
    simp only [transferPhase, ht, hio, hty]
    exact ⟨trivial, approx_zero_iff tr.amount (ls * dt)⟩
  · intro cap ls dt fs tr ioid io b ht hio hty hb
    simp only [transferPhase, ht, hio, hty, hb]
    have hmin : min (min (cap - tr.amount) (ls * dt)) b
        = min (ls * dt) (min (cap - tr.amount) b) := by
      rw [min_assoc, min_left_comm]
    refine ⟨by rw [hmin], ?_⟩
    have hle : tr.amount + min (min (cap - tr.amount) (ls * dt)) b ≤ cap := by
      have h1 : min (min (cap - tr.amount) (ls * dt)) b ≤ cap - tr.amount :=
        le_trans (min_le_left _ _) (min_le_left _ _)
      linarith
    exact approx_cap_iff cap _ hle

/-- Claim C1 witness: the amended characterisation applied to the
concrete unloading train `tr1`. -/
theorem C1_witness :
    (transferPhase 10 5 1 [inPortFac] tr1).1.amount
        = tr1.amount - min tr1.amount (5 * 1) ∧
    ((transferPhase 10 5 1 [inPortFac] tr1).2.2 = true ↔ tr1.amount < 5 * 1 + EPS) :=
  C1_amended.1 10 5 1 [inPortFac] tr1 ⟨0, 0⟩ inPort rfl rfl rfl

theorem find?_id_cons_pos {f : Factory} {rest : List Factory} {i : Id}
    (h : f.id = i) :
    (f :: rest).find? (fun x => x.id == i) = some f :=
  List.find?_cons_of_pos _ (by simpa using h)

theorem find?_id_cons_neg {f : Factory} {rest : List Factory} {i : Id}
    (h : ¬ f.id = i) :
    (f :: rest).find? (fun x => x.id == i) = rest.find? (fun x => x.id == i) :=
  List.find?_cons_of_neg _ (by simpa using h)

theorem getIo_cons_pos {f : Factory} {rest : List Factory} {i : IoId}
    (h : f.id = i.factory) : getIo (f :: rest) i = f.io[i.io]? := by
  rw [getIo, find?_id_cons_pos h]
  rfl

theorem getIo_cons_neg {f : Factory} {rest : List Factory} {i : IoId}
    (h : ¬ f.id = i.factory) : getIo (f :: rest) i = getIo rest i := by
  rw [getIo, find?_id_cons_neg h, getIo]

theorem get?_updateIoAmount (l : List FactoryIo) (idx : ℕ) (g : Option ℚ → Option ℚ) :
    (updateIoAmount l idx g)[idx]?
      = l[idx]?.map (fun io => { io with amount := g io.amount }) := by
  unfold updateIoAmount
  cases h : l[idx]? with
  | none => simp [h]
  | some io => simp [List.getElem?_set_self', h]

theorem getIo_updateFactories (fs : List Factory) (i : IoId) (g : Option ℚ → Option ℚ) :
    getIo (updateFactories fs i g) i
      = (getIo fs i).map (fun io => { io with amount := g io.amount }) := by
  induction fs with
  | nil => rfl
  | cons f rest ih =>
    by_cases h : f.id = i.factory
    · rw [updateFactories, if_pos h,
        getIo_cons_pos (f := { f with io := updateIoAmount f.io i.io g }) h,
        getIo_cons_pos h, get?_updateIoAmount]
    · rw [updateFactories, if_neg h, getIo_cons_neg h, getIo_cons_neg h, ih]

theorem set_getElem?_self : ∀ (l : List FactoryIo) (i : ℕ) (a : FactoryIo),
    l[i]? = some a → l.set i a = l
  | [], _, _, h => by simp at h
  | x :: t, 0, a, h => by
    simp only [List.getElem?_cons_zero, Option.some_inj] at h
    simp [h]
  | x :: t, i + 1, a, h => by
    simp only [List.getElem?_cons_succ] at h
    simp [set_getElem?_self t i a h]

theorem updateIoAmount_congr (l : List FactoryIo) (idx : ℕ) (g : Option ℚ → Option ℚ)
    (h : ∀ io, l[idx]? = some io → g io.amount = io.amount) :
    updateIoAmount l idx g = l := by
  unfold updateIoAmount
  cases hg : l[idx]? with
  | none => rfl
  | some io =>
    show l.set idx { io with amount := g io.amount } = l
    rw [h io hg]
    exact set_getElem?_self l idx io hg

theorem updateFactories_congr (fs : List Factory) (i : IoId) (g : Option ℚ → Option ℚ)
    (h : ∀ io, getIo fs i = some io → g io.amount = io.amount) :
    updateFactories fs i g = fs := by
  induction fs with
  | nil => rfl
  | cons f rest ih =>
    by_cases hf : f.id = i.factory
    · rw [updateFactories, if_pos hf]
      have he : updateIoAmount f.io i.io g = f.io := by
        apply updateIoAmount_congr
        intro io hio
        apply h
        rw [getIo_cons_pos hf, hio]
      rw [he]
    · rw [updateFactories, if_neg hf]
      rw [ih]
      intro io hio
      apply h
      rw [getIo_cons_neg hf, hio]

/-- Scenario 3 output port: buffer 3, resource 7. -/
def outPort : FactoryIo := ⟨IoType.Output, 3, 7, some 3, ⟨1, 1⟩⟩

/-- The factory owning `outPort` (id 1). -/
def outPortFac : Factory := ⟨1, 0, ⟨0, 0⟩, [outPort]⟩

/-- Scenario 3 train: capacity 10, cargo 0, loading from `outPort`. -/
def tr3 : Train := ⟨11, 7, 0, 4, ⟨0, 0, 0⟩, [], none, some ⟨1, 0⟩⟩

/-- Claim C4: loading from an Output-port target transfers exactly
`min (loadSpeed*dt) (min (capacity - cargo) buffer)` onto the train and
subtracts the same amount from the port buffer, which never goes
negative; in scenario 3 (capacity 10, cargo 0, buffer 3, load speed 5,
dt 1) the train ends with exactly 3, the buffer with 0, and the
transfer is not yet done. -/
theorem C4_output_transfer :
    (∀ (cap ls dt : ℚ) (fs : List Factory) (tr : Train) (ioid : IoId) (io : FactoryIo)
      (b : ℚ),
      tr.target = some ioid → getIo fs ioid = some io → io.ty = IoType.Output →
      io.amount = some b →
      (transferPhase cap ls dt fs tr).1.amount
          = tr.amount + min (ls * dt) (min (cap - tr.amount) b) ∧
      getIo (transferPhase cap ls dt fs tr).2.1 ioid
          = some { io with
              amount := some (b - min (ls * dt) (min (cap - tr.amount) b)) } ∧
      0 ≤ b - min (ls * dt) (min (cap - tr.amount) b)) ∧
    ((transferPhase 10 5 1 [outPortFac] tr3).1.amount = 3 ∧
     (transferPhase 10 5 1 [outPortFac] tr3).2.1
        = [⟨1, 0, ⟨0, 0⟩, [⟨IoType.Output, 3, 7, some 0, ⟨1, 1⟩⟩]⟩] ∧
     (transferPhase 10 5 1 [outPortFac] tr3).2.2 = false) := by
  constructor
  · intro cap ls dt fs tr ioid io b ht hio hty hb
    simp only [transferPhase, ht, hio, hty, hb]
    have hmin : min (min (cap - tr.amount) (ls * dt)) b
        = min (ls * dt) (min (cap - tr.amount) b) := by
      rw [min_assoc, min_left_comm]
    refine ⟨by rw [hmin], ?_, ?_⟩
    · rw [getIo_updateFactories, hio, hmin]
      simp [hb, hty]
    · have h1 : min (ls * dt) (min (cap - tr.amount) b) ≤ b :=
        le_trans (min_le_right _ _) (min_le_right _ _)
      linarith
  · refine ⟨?_, ?_, ?_⟩ <;>
      norm_num [transferPhase, tr3, outPortFac, outPort, getIo, updateFactories,
        updateIoAmount, approxEq, EPS]

/-- Claim C4 witness: the general load characterisation applied to the
scenario 3 train and port. -/
theorem C4_witness :
    (transferPhase 10 5 1 [outPortFac] tr3).1.amount
        = tr3.amount + min (5 * 1) (min (10 - tr3.amount) 3) ∧
    getIo (transferPhase 10 5 1 [outPortFac] tr3).2.1 ⟨1, 0⟩
        = some { outPort with
            amount := some (3 - min (5 * 1) (min (10 - tr3.amount) 3)) } ∧
    0 ≤ 3 - min (5 * 1) (min (10 - tr3.amount) 3) :=
  C4_output_transfer.1 10 5 1 [outPortFac] tr3 ⟨1, 0⟩ outPort 3 rfl rfl rfl rfl

/-- A factory whose single input port has no configured rate, hence no
buffered amount (`amount = none`). -/
def ratelessFac : Factory := ⟨2, 0, ⟨0, 0⟩, [⟨IoType.Input, 4, 7, none, ⟨1, 0⟩⟩]⟩

/-- A train with 2 units of cargo unloading into the rate-less port. -/
def tr10 : Train := ⟨12, 7, 2, 4, ⟨0, 0, 0⟩, [], none, some ⟨2, 0⟩⟩

/-- Claim C10: when the active target is an Input port with no
configured rate (so no buffered amount), a tick still decreases the
train's cargo by `min cargo (loadSpeed*dt)` while the factory list —
and hence every port buffer — is left completely unchanged: the
unloaded cargo is not conserved anywhere. -/
theorem C10_rateless_input_sink :
    ∀ (cap ls dt : ℚ) (fs : List Factory) (tr : Train) (ioid : IoId) (io : FactoryIo),
      tr.target = some ioid → getIo fs ioid = some io → io.ty = IoType.Input →
      io.amount = none → 0 < dt →
      (transferPhase cap ls dt fs tr).1.amount = tr.amount - min tr.amount (ls * dt) ∧
      (transferPhase cap ls dt fs tr).2.1 = fs := by
  intro cap ls dt fs tr ioid io ht hio hty hnone _
  simp only [transferPhase, ht, hio, hty]
  refine ⟨trivial, ?_⟩
  apply updateFactories_congr
  intro io' hio'
  rw [hio] at hio'
  cases hio'
  rw [hnone]
  rfl

/-- Claim C10 witness: the rate-less sink behaviour at a concrete train
and factory (cargo 2, load speed 5, dt 1). -/
theorem C10_witness :
    (0 : ℚ) < 1 ∧
    ((transferPhase 10 5 1 [ratelessFac] tr10).1.amount
        = tr10.amount - min tr10.amount (5 * 1) ∧
     (transferPhase 10 5 1 [ratelessFac] tr10).2.1 = [ratelessFac]) :=
  ⟨by norm_num,
    C10_rateless_input_sink 10 5 1 [ratelessFac] tr10 ⟨2, 0⟩
      ⟨IoType.Input, 4, 7, none, ⟨1, 0⟩⟩ rfl rfl rfl rfl (by norm_num)⟩

/-- Claim C9: an idle train (no route, no target) whose target-selection
step picks a candidate commits a new target only when the router finds
a route; when the router returns no path the train keeps no target and
no route — it stays idle for the tick — and the factory list is
untouched either way. -/
theorem C9_no_route_no_commit :
    ∀ (cap ls dt : ℚ)
      (pick : List (Id × ℕ × FactoryIo) → Option (Id × ℕ × FactoryIo))
      (t : Tracks) (len : Vec2 → Vec2 → ℚ) (fs : List Factory) (tr : Train),
      tr.path_from_target = none → tr.target = none →
      (trainSchedStep cap ls dt pick t len fs tr).2 = fs ∧
      (∀ i, (trainSchedStep cap ls dt pick t len fs tr).1.target = some i →
        ∃ p, (trainSchedStep cap ls dt pick t len fs tr).1.path_from_target = some p) ∧
      (∀ c, pick (portCandidates
            (if tr.amount > cap / 2 then IoType.Input else IoType.Output)
            tr.resource fs) = some c →
        t.pathfind len c.2.2.node tr.head.toN = none →
        (trainSchedStep cap ls dt pick t len fs tr).1.target = none ∧
        (trainSchedStep cap ls dt pick t len fs tr).1.path_from_target = none) := by
  intro cap ls dt pick t len fs tr hpath htarget
  have hstep : trainSchedStep cap ls dt pick t len fs tr
      = (selectionPhase cap pick t len fs tr, fs) := by
    rw [trainSchedStep, hpath]
    simp only [Option.isSome_none, Bool.false_eq_true, if_false, transferPhase, htarget]
    rfl
  rw [hstep]
  refine ⟨rfl, ?_, ?_⟩
  · intro i hi
    simp only [selectionPhase] at hi ⊢
    split at hi
    · split at hi
      · exact ⟨_, rfl⟩
      · rw [htarget] at hi
        cases hi
    · rw [htarget] at hi
      cases hi
  · intro c hp hf
    simp only [selectionPhase]
    split
    · rename_i c' hc'
      rw [hp] at hc'
      cases hc'
      split
      · rename_i p hp'
        rw [hf] at hp'
        cases hp'
      · exact ⟨htarget, rfl⟩
    · rename_i hc'
      rw [hp] at hc'
      cases hc'

/-- A pick function modelling one concrete draw: take the first
candidate. -/
def pickHead : List (Id × ℕ × FactoryIo) → Option (Id × ℕ × FactoryIo) :=
  List.head?

/-- Two isolated track nodes (ids 0 and 5), no connections. -/
def twoIsl : Tracks := ⟨[⟨0, ⟨0, 0⟩, []⟩, ⟨5, ⟨1, 1⟩, []⟩]⟩

/-- A matching output port sitting on the unreachable node 5. -/
def catPort : FactoryIo := ⟨IoType.Output, 5, 7, some 1, ⟨1, 1⟩⟩

/-- The factory owning `catPort` (id 3). -/
def catFac : Factory := ⟨3, 0, ⟨0, 0⟩, [catPort]⟩

/-- An idle empty train at node 0, matching `catPort`'s resource. -/
def trIdle : Train := ⟨13, 7, 0, 4, ⟨0, 0, 0⟩, [], none, none⟩

/-- A length function whose value is irrelevant to the witness. -/
def zeroLen : Vec2 → Vec2 → ℚ := fun _ _ => 0

/-- Claim C9 witness: the idle train picks the port on the disconnected
node, the router finds no path, and the train stays idle. -/
theorem C9_witness :
    (trainSchedStep 10 5 1 pickHead twoIsl zeroLen [catFac] trIdle).1.target = none ∧
    (trainSchedStep 10 5 1 pickHead twoIsl zeroLen [catFac] trIdle).1.path_from_target
      = none :=
  (C9_no_route_no_commit 10 5 1 pickHead twoIsl zeroLen [catFac] trIdle rfl rfl).2.2
    (3, 0, catPort)
    (by norm_num [pickHead, portCandidates, trIdle, catFac, catPort]) rfl

/-- A train about to overshoot: head at ratio 0 on an edge of length 1,
route continuing over node 2 then 3, advance 3 in one tick. -/
def trK : Train := ⟨10, 7, 0, 100, ⟨0, 1, 0⟩, [], some [3, 2], none⟩

/-- All edges have length 1. -/
def oneSeg : Id → Id → ℚ := fun _ _ => 1

/-- Claim C8 counterexample: a kinematic advance of 3 across edges of
length 1 crosses onto the next edge and leaves `head.ratio = 2`,
outside `[0, 1]` — the code pops only one route node per tick and does
not clamp the remainder. -/
theorem C8_counterexample :
    (kinStep 3 1 oneSeg trK).head.ratio = 2 ∧
    ¬ ((kinStep 3 1 oneSeg trK).head.ratio ≤ 1) := by
  constructor <;> norm_num [kinStep, stripTo, oneSeg, trK]

/-- Claim C8 (amended): the head ratio stays in `[0, 1]` provided the
tick's advance, measured from the start of the current edge, does not
extend beyond the end of the next route edge; and exhausting the route
(empty remaining path with the current edge fully consumed) clamps the
ratio to exactly 1.  Without the overshoot bound the ratio can exceed 1,
as the counterexample shows. -/
theorem C8_amended :
    ∀ (speed dt : ℚ) (seg : Id → Id → ℚ) (tr : Train),
      (∀ a b, 0 ≤ seg a b) → 0 ≤ tr.head.ratio → tr.head.ratio ≤ 1 → 0 ≤ speed * dt →
      (∀ path next, tr.path_from_target = some path →
        (stripTo tr.head.toN path).getLast? = some next →
        tr.head.ratio * seg tr.head.fromN tr.head.toN + speed * dt
          ≤ seg tr.head.fromN tr.head.toN + seg tr.head.toN next) →
      (0 ≤ (kinStep speed dt seg tr).head.ratio ∧
        (kinStep speed dt seg tr).head.ratio ≤ 1) ∧
      (∀ path, tr.path_from_target = some path →
        stripTo tr.head.toN path = [] →
        seg tr.head.fromN tr.head.toN
          ≤ tr.head.ratio * seg tr.head.fromN tr.head.toN + speed * dt →
        (kinStep speed dt seg tr).head.ratio = 1) := by
  intro speed dt seg tr hseg h0 h1 hsd hover
  cases hp : tr.path_from_target with
  | none =>
    simp only [kinStep, hp]
    refine ⟨⟨h0, h1⟩, fun path hpath => ?_⟩
    cases hpath
  | some path0 =>
    simp only [kinStep, hp]
    have hprog0 : 0 ≤ tr.head.ratio * seg tr.head.fromN tr.head.toN + speed * dt :=
      add_nonneg (mul_nonneg h0 (hseg _ _)) hsd
    by_cases hlt : tr.head.ratio * seg tr.head.fromN tr.head.toN + speed * dt
        < seg tr.head.fromN tr.head.toN
    · rw [if_pos hlt]
      have hLpos : 0 < seg tr.head.fromN tr.head.toN := lt_of_le_of_lt hprog0 hlt
      refine ⟨⟨div_nonneg hprog0 (le_of_lt hLpos), ?_⟩, fun path hpath hstrip hge => ?_⟩
      · rw [div_le_one hLpos]
        exact le_of_lt hlt
      · exact absurd hge (not_le.2 hlt)
    · rw [if_neg hlt]
      cases hlast : (stripTo tr.head.toN path0).getLast? with
      | some next =>
        have hnn : 0 ≤ tr.head.ratio * seg tr.head.fromN tr.head.toN + speed * dt
            - seg tr.head.fromN tr.head.toN := sub_nonneg.2 (not_lt.1 hlt)
        have hbound : tr.head.ratio * seg tr.head.fromN tr.head.toN + speed * dt
            - seg tr.head.fromN tr.head.toN ≤ seg tr.head.toN next := by
          have := hover path0 next hp hlast
          linarith
        refine ⟨?_, fun path hpath hstrip hge => ?_⟩
        · rcases eq_or_lt_of_le (hseg tr.head.toN next) with he | hpos
          · constructor
            · show (0 : ℚ) ≤ _ / seg tr.head.toN next
              rw [← he, div_zero]
            · show _ / seg tr.head.toN next ≤ (1 : ℚ)
              rw [← he, div_zero]
              norm_num
          · constructor
            · exact div_nonneg hnn (le_of_lt hpos)
            · show _ / seg tr.head.toN next ≤ (1 : ℚ)
              rw [div_le_one hpos]
              exact hbound
        · cases hpath
          rw [hstrip] at hlast
          cases hlast
      | none =>
        exact ⟨by norm_num, fun _ _ _ _ => rfl⟩

/-- A train that crosses exactly half-way onto the next edge. -/
def trW : Train := ⟨14, 7, 0, 100, ⟨0, 1, 0⟩, [], some [2], none⟩

/-- Claim C8 witness: the amended bound applied to a concrete crossing
advance of `3/2` over unit edges, landing at ratio `1/2` on the next
edge. -/
theorem C8_witness :
    (0 ≤ (kinStep (3 / 2) 1 oneSeg trW).head.ratio ∧
      (kinStep (3 / 2) 1 oneSeg trW).head.ratio ≤ 1) ∧
    (∀ path, trW.path_from_target = some path →
      stripTo trW.head.toN path = [] →
      oneSeg trW.head.fromN trW.head.toN
        ≤ trW.head.ratio * oneSeg trW.head.fromN trW.head.toN + 3 / 2 * 1 →
      (kinStep (3 / 2) 1 oneSeg trW).head.ratio = 1) :=
  C8_amended (3 / 2) 1 oneSeg trW (fun _ _ => by norm_num [oneSeg])
    (by norm_num [trW]) (by norm_num [trW]) (by norm_num)
    (by
      intro path next hpath hlast
      simp only [trW, Option.some_inj] at hpath
      subst hpath
      norm_num [oneSeg, trW])

/-- All buffered amounts of all ports of all factories non-negative. -/
def BuffersNonneg (fs : List Factory) : Prop :=
  ∀ f ∈ fs, ∀ io ∈ f.io, ∀ a ∈ io.amount, 0 ≤ a

/-- All buffered amounts of input ports non-negative. -/
def InputsNonneg (fs : List Factory) : Prop :=
  ∀ f ∈ fs, ∀ io ∈ f.io, io.ty = IoType.Input → ∀ a ∈ io.amount, 0 ≤ a

theorem flowStep_nonneg (acc : ℚ) (p : FactoryIo × FactoryIoConfig)
    (hacc : 0 ≤ acc) (ha : ∀ a ∈ p.1.amount, 0 ≤ a)
    (hs : ∀ s ∈ p.2.speed, 0 ≤ s) : 0 ≤ flowStep acc p := by
  unfold flowStep
  split
  · cases hA : p.1.amount with
    | none => exact hacc
    | some a =>
      cases hS : p.2.speed with
      | none => exact hacc
      | some s =>
        exact le_min hacc (div_nonneg (ha a (by simp [hA])) (hs s (by simp [hS])))
  · exact hacc

theorem foldl_flowStep_nonneg :
    ∀ (l : List (FactoryIo × FactoryIoConfig)) (acc : ℚ), 0 ≤ acc →
      (∀ p ∈ l, ∀ a ∈ p.1.amount, 0 ≤ a) → (∀ p ∈ l, ∀ s ∈ p.2.speed, 0 ≤ s) →
      0 ≤ l.foldl flowStep acc
  | [], acc, hacc, _, _ => hacc
  | p :: l, acc, hacc, h1, h2 => by
    rw [List.foldl_cons]
    exact foldl_flowStep_nonneg l (flowStep acc p)
      (flowStep_nonneg acc p hacc (h1 p (List.mem_cons_self p l))
        (h2 p (List.mem_cons_self p l)))
      (fun q hq => h1 q (List.mem_cons_of_mem p hq))
      (fun q hq => h2 q (List.mem_cons_of_mem p hq))

theorem flowLimit_nonneg (cfg : List FactoryIoConfig) (dt : ℚ) (f : Factory)
    (hdt : 0 ≤ dt) (hf : ∀ io ∈ f.io, ∀ a ∈ io.amount, 0 ≤ a)
    (hcfg : ∀ c ∈ cfg, ∀ s ∈ c.speed, 0 ≤ s) : 0 ≤ flowLimit cfg dt f := by
  apply foldl_flowStep_nonneg _ _ hdt
  · intro p hp
    exact hf p.1 (List.of_mem_zip hp).1
  · intro p hp
    exact hcfg p.2 (List.of_mem_zip hp).2

theorem flowFactory_buffersNonneg (cfg : List FactoryIoConfig) (dt : ℚ) (f : Factory)
    (hdt : 0 ≤ dt) (hf : ∀ io ∈ f.io, ∀ a ∈ io.amount, 0 ≤ a)
    (hcfg : ∀ c ∈ cfg, ∀ s ∈ c.speed, 0 ≤ s) :
    ∀ io ∈ (flowFactory cfg dt f).io, ∀ a ∈ io.amount, 0 ≤ a := by
  intro io hio a ha
  have hL : 0 ≤ flowLimit cfg dt f := flowLimit_nonneg cfg dt f hdt hf hcfg
  rw [flowFactory_io_spec, ← flowLimit_eq_limitDtSpec] at hio
  rcases List.mem_append.1 hio with h | h
  · rcases List.mem_map.1 h with ⟨p, hp, heq⟩
    have hp1 : p.1 ∈ f.io := (List.of_mem_zip hp).1
    have hp2 : p.2 ∈ cfg := (List.of_mem_zip hp).2
    subst heq
    unfold flowIoSpec at ha
    cases hT : p.1.ty with
    | Input =>
      cases hA : p.1.amount with
      | none =>
        simp only [hT, hA] at ha
        exact hf p.1 hp1 a (by rw [hA]; exact ha)
      | some a0 =>
        cases hS : p.2.speed with
        | none =>
          simp only [hT, hA, hS] at ha
          exact hf p.1 hp1 a (by rw [hA]; exact ha)
        | some s =>
          simp only [hT, hA, hS, Option.mem_def, Option.some_inj] at ha
          rw [← ha]
          exact le_max_right _ _
    | Output =>
      cases hA : p.1.amount with
      | none =>
        simp only [hT, hA] at ha
        exact hf p.1 hp1 a (by rw [hA]; exact ha)
      | some a0 =>
        cases hS : p.2.speed with
        | none =>
          simp only [hT, hA, hS] at ha
          exact hf p.1 hp1 a (by rw [hA]; exact ha)
        | some s =>
          simp only [hT, hA, hS, Option.mem_def, Option.some_inj] at ha
          rw [← ha]
          exact add_nonneg (hf p.1 hp1 a0 (by simp [hA]))
            (mul_nonneg (hcfg p.2 hp2 s (by simp [hS])) hL)
  · exact hf io (List.mem_of_mem_drop h) a ha

theorem flowFactory_inputsNonneg (cfg : List FactoryIoConfig) (dt : ℚ) (f : Factory)
    (hf : ∀ io ∈ f.io, io.ty = IoType.Input → ∀ a ∈ io.amount, 0 ≤ a) :
    ∀ io ∈ (flowFactory cfg dt f).io, io.ty = IoType.Input → ∀ a ∈ io.amount, 0 ≤ a := by
  intro io hio hty a ha
  rw [flowFactory_io_spec, ← flowLimit_eq_limitDtSpec] at hio
  rcases List.mem_append.1 hio with h | h
  · rcases List.mem_map.1 h with ⟨p, hp, heq⟩
    have hp1 : p.1 ∈ f.io := (List.of_mem_zip hp).1
    subst heq
    unfold flowIoSpec at hty ha
    cases hT : p.1.ty with
    | Input =>
      cases hA : p.1.amount with
      | none =>
        simp only [hT, hA] at ha
        exact hf p.1 hp1 hT a (by rw [hA]; exact ha)
      | some a0 =>
        cases hS : p.2.speed with
        | none =>
          simp only [hT, hA, hS] at ha
          exact hf p.1 hp1 hT a (by rw [hA]; exact ha)
        | some s =>
          simp only [hT, hA, hS, Option.mem_def, Option.some_inj] at ha
          rw [← ha]
          exact le_max_right _ _
    | Output =>
      cases hA : p.1.amount with
      | none =>
        simp [hT, hA] at hty
      | some a0 =>
        cases hS : p.2.speed with
        | none =>
          simp [hT, hA, hS] at hty
        | some s =>
          simp [hT, hA, hS] at hty
  · exact hf io (List.mem_of_mem_drop h) hty a ha

theorem mem_updateIoAmount {l : List FactoryIo} {idx : ℕ} {g : Option ℚ → Option ℚ}
    {io' : FactoryIo} (h : io' ∈ updateIoAmount l idx g) :
    io' ∈ l ∨ ∃ io, l[idx]? = some io ∧ io' = { io with amount := g io.amount } := by
  unfold updateIoAmount at h
  cases hg : l[idx]? with
  | none =>
    rw [hg] at h
    exact Or.inl h
  | some io =>
    rw [hg] at h
    rcases List.mem_or_eq_of_mem_set h with h' | h'
    · exact Or.inl h'
    · exact Or.inr ⟨io, rfl, h'⟩

theorem mem_updateFactories : ∀ {fs : List Factory} {i : IoId}
    {g : Option ℚ → Option ℚ} {f' : Factory}, f' ∈ updateFactories fs i g →
    f' ∈ fs ∨ ∃ f, f ∈ fs ∧ f' = { f with io := updateIoAmount f.io i.io g } ∧
      getIo fs i = f.io[i.io]? := by
  intro fs
  induction fs with
  | nil => intro i g f' h; exact Or.inl h
  | cons f rest ih =>
    intro i g f' h
    by_cases hf : f.id = i.factory
    · rw [updateFactories, if_pos hf] at h
      rcases List.mem_cons.1 h with h' | h'
      · exact Or.inr ⟨f, List.mem_cons_self f rest, h', getIo_cons_pos hf⟩
      · exact Or.inl (List.mem_cons_of_mem f h')
    · rw [updateFactories, if_neg hf] at h
      rcases List.mem_cons.1 h with h' | h'
      · exact Or.inl (h' ▸ List.mem_cons_self f rest)
      · rcases ih h' with h'' | ⟨f₀, hm, he, hg⟩
        · exact Or.inl (List.mem_cons_of_mem f h'')
        · exact Or.inr ⟨f₀, List.mem_cons_of_mem f hm, he, by
            rw [getIo_cons_neg hf, hg]⟩

theorem getIo_mem {fs : List Factory} {i : IoId} {io : FactoryIo}
    (h : getIo fs i = some io) : ∃ f, f ∈ fs ∧ io ∈ f.io := by
  unfold getIo at h
  cases hfind : fs.find? (fun f => f.id == i.factory) with
  | none => rw [hfind] at h; cases h
  | some f =>
    rw [hfind] at h
    exact ⟨f, List.mem_of_find?_eq_some hfind, List.getElem?_mem h⟩

/-- Target selection never changes the train's cargo. -/
theorem selectionPhase_amount (cap : ℚ)
    (pick : List (Id × ℕ × FactoryIo) → Option (Id × ℕ × FactoryIo))
    (t : Tracks) (len : Vec2 → Vec2 → ℚ) (fs : List Factory) (tr : Train) :
    (selectionPhase cap pick t len fs tr).amount = tr.amount := by
  simp only [selectionPhase]
  split
  · split <;> rfl
  · rfl

theorem transferPhase_inv (cap ls dt : ℚ) (fs : List Factory) (tr : Train)
    (hb : BuffersNonneg fs) (h0 : 0 ≤ tr.amount) (h1 : tr.amount ≤ cap)
    (hls : 0 ≤ ls * dt) :
    BuffersNonneg (transferPhase cap ls dt fs tr).2.1 ∧
    0 ≤ (transferPhase cap ls dt fs tr).1.amount ∧
    (transferPhase cap ls dt fs tr).1.amount ≤ cap := by
  unfold transferPhase
  split
  · exact ⟨hb, h0, h1⟩
  · rename_i ioid hta
    split
    · exact ⟨hb, h0, h1⟩
    · rename_i io hget
      have hunl : 0 ≤ min tr.amount (ls * dt) := le_min h0 hls
      split
      · -- Input: unload min(cargo, ls*dt) into the port
        refine ⟨?_, ?_, ?_⟩
        · intro f' hf' io' hio' a ha
          rcases mem_updateFactories hf' with h | ⟨f, hm, he, hgi⟩
          · exact hb f' h io' hio' a ha
          · subst he
            rcases mem_updateIoAmount hio' with h' | ⟨io₀, hidx, he'⟩
            · exact hb f hm io' h' a ha
            · subst he'
              rw [Option.mem_def] at ha
              rcases Option.map_eq_some'.1 ha with ⟨a₀, ha₀, heq⟩
              rw [← heq]
              exact add_nonneg
                (hb f hm io₀ (List.getElem?_mem hidx) a₀ (by rw [ha₀]; rfl)) hunl
        · show 0 ≤ tr.amount - min tr.amount (ls * dt)
          have := min_le_left tr.amount (ls * dt)
          linarith
        · show tr.amount - min tr.amount (ls * dt) ≤ cap
          linarith
      · -- Output: load bounded by free capacity, ls*dt and the buffer
        rename_i hty
        have hcap : 0 ≤ cap - tr.amount := by linarith
        split
        · -- the port has a buffer: load = min (min (cap-amt) (ls*dt)) b
          rename_i b hbm
          have hbpos : 0 ≤ b := by
            rcases getIo_mem hget with ⟨f, hm, hio⟩
            exact hb f hm io hio b (by rw [hbm]; rfl)
          have hload0 : 0 ≤ min (cap - tr.amount) (ls * dt) := le_min hcap hls
          have hload : 0 ≤ min (min (cap - tr.amount) (ls * dt)) b :=
            le_min hload0 hbpos
          have hloadle : min (min (cap - tr.amount) (ls * dt)) b ≤ cap - tr.amount :=
            le_trans (min_le_left _ _) (min_le_left _ _)
          have hloadb : min (min (cap - tr.amount) (ls * dt)) b ≤ b := min_le_right _ _
          refine ⟨?_, ?_, ?_⟩
          · intro f' hf' io' hio' a ha
            rcases mem_updateFactories hf' with h | ⟨f, hm, he, hgi⟩
            · exact hb f' h io' hio' a ha
            · subst he
              rcases mem_updateIoAmount hio' with h' | ⟨io₀, hidx, he'⟩
              · exact hb f hm io' h' a ha
              · subst he'
                have hio₀ : io₀ = io := by
                  rw [hgi, hidx] at hget
                  exact Option.some_inj.1 hget
                subst hio₀
                rw [Option.mem_def] at ha
                rcases Option.map_eq_some'.1 ha with ⟨a₀, ha₀, heq⟩
                rw [hbm] at ha₀
                cases ha₀
                rw [← heq]
                linarith
          · show 0 ≤ tr.amount + min (min (cap - tr.amount) (ls * dt)) b
            linarith
          · show tr.amount + min (min (cap - tr.amount) (ls * dt)) b ≤ cap
            linarith
        · -- no buffer: load = min (cap-amt) (ls*dt), port untouched
          rename_i hbm
          have hload0 : 0 ≤ min (cap - tr.amount) (ls * dt) := le_min hcap hls
          have hloadle : min (cap - tr.amount) (ls * dt) ≤ cap - tr.amount :=
            min_le_left _ _
          refine ⟨?_, ?_, ?_⟩
          · intro f' hf' io' hio' a ha
            rcases mem_updateFactories hf' with h | ⟨f, hm, he, hgi⟩
            · exact hb f' h io' hio' a ha
            · subst he
              rcases mem_updateIoAmount hio' with h' | ⟨io₀, hidx, he'⟩
              · exact hb f hm io' h' a ha
              · subst he'
                have hio₀ : io₀ = io := by
                  rw [hgi, hidx] at hget
                  exact Option.some_inj.1 hget
                subst hio₀
                rw [Option.mem_def] at ha
                rcases Option.map_eq_some'.1 ha with ⟨a₀, ha₀, heq⟩
                rw [hbm] at ha₀
                cases ha₀
          · show 0 ≤ tr.amount + min (cap - tr.amount) (ls * dt)
            linarith
          · show tr.amount + min (cap - tr.amount) (ls * dt) ≤ cap
            linarith

theorem transferPhase_inputs (cap ls dt : ℚ) (fs : List Factory) (tr : Train)
    (hi : InputsNonneg fs) (h0 : 0 ≤ tr.amount) (hls : 0 ≤ ls * dt) :
    InputsNonneg (transferPhase cap ls dt fs tr).2.1 := by
  unfold transferPhase
  split
  · exact hi
  · rename_i ioid hta
    split
    · exact hi
    · rename_i io hget
      have hunl : 0 ≤ min tr.amount (ls * dt) := le_min h0 hls
      split
      · intro f' hf' io' hio' hty' a ha
        rcases mem_updateFactories hf' with h | ⟨f, hm, he, hgi⟩
        · exact hi f' h io' hio' hty' a ha
        · subst he
          rcases mem_updateIoAmount hio' with h' | ⟨io₀, hidx, he'⟩
          · exact hi f hm io' h' hty' a ha
          · subst he'
            rw [Option.mem_def] at ha
            rcases Option.map_eq_some'.1 ha with ⟨a₀, ha₀, heq⟩
            rw [← heq]
            exact add_nonneg
              (hi f hm io₀ (List.getElem?_mem hidx) hty' a₀ (by rw [ha₀]; rfl)) hunl
      · rename_i hty
        intro f' hf' io' hio' hty' a ha
        rcases mem_updateFactories hf' with h | ⟨f, hm, he, hgi⟩
        · exact hi f' h io' hio' hty' a ha
        · subst he
          rcases mem_updateIoAmount hio' with h' | ⟨io₀, hidx, he'⟩
          · exact hi f hm io' h' hty' a ha
          · subst he'
            have hio₀ : io₀ = io := by
              rw [hgi, hidx] at hget
              exact Option.some_inj.1 hget
            subst hio₀
            have h2 : io₀.ty = IoType.Input := hty'
            rw [hty] at h2
            cases h2

/-- The kinematic advance never changes the train's cargo. -/
theorem kinStep_amount (speed dt : ℚ) (seg : Id → Id → ℚ) (tr : Train) :
    (kinStep speed dt seg tr).amount = tr.amount := by
  simp only [kinStep]
  split
  · rfl
  · split
    · rfl
    · split <;> rfl

theorem trainSchedStep_inv (cap ls dt : ℚ)
    (pick : List (Id × ℕ × FactoryIo) → Option (Id × ℕ × FactoryIo))
    (t : Tracks) (len : Vec2 → Vec2 → ℚ) (fs : List Factory) (tr : Train)
    (hb : BuffersNonneg fs) (h0 : 0 ≤ tr.amount) (h1 : tr.amount ≤ cap)
    (hls : 0 ≤ ls * dt) :
    BuffersNonneg (trainSchedStep cap ls dt pick t len fs tr).2 ∧
    0 ≤ (trainSchedStep cap ls dt pick t len fs tr).1.amount ∧
    (trainSchedStep cap ls dt pick t len fs tr).1.amount ≤ cap := by
  simp only [trainSchedStep]
  split
  · exact ⟨hb, h0, h1⟩
  · have h := transferPhase_inv cap ls dt fs tr hb h0 h1 hls
    split
    · refine ⟨h.1, ?_, ?_⟩
      · rw [selectionPhase_amount]
        exact h.2.1
      · rw [selectionPhase_amount]
        exact h.2.2
    · exact ⟨h.1, h.2.1, h.2.2⟩

theorem trainSchedStep_inputs (cap ls dt : ℚ)
    (pick : List (Id × ℕ × FactoryIo) → Option (Id × ℕ × FactoryIo))
    (t : Tracks) (len : Vec2 → Vec2 → ℚ) (fs : List Factory) (tr : Train)
    (hi : InputsNonneg fs) (h0 : 0 ≤ tr.amount) (hls : 0 ≤ ls * dt) :
    InputsNonneg (trainSchedStep cap ls dt pick t len fs tr).2 := by
  simp only [trainSchedStep]
  split
  · exact hi
  · have h := transferPhase_inputs cap ls dt fs tr hi h0 hls
    split
    · exact h
    · exact h

theorem schedPhase_inv (cap ls dt : ℚ)
    (pick : List (Id × ℕ × FactoryIo) → Option (Id × ℕ × FactoryIo))
    (t : Tracks) (len : Vec2 → Vec2 → ℚ) :
    ∀ (trains : List Train) (fs : List Factory),
      BuffersNonneg fs → (∀ tr ∈ trains, 0 ≤ tr.amount ∧ tr.amount ≤ cap) →
      0 ≤ ls * dt →
      BuffersNonneg (schedPhase cap ls dt pick t len trains fs).2 ∧
      ∀ tr ∈ (schedPhase cap ls dt pick t len trains fs).1,
        0 ≤ tr.amount ∧ tr.amount ≤ cap
  | [], fs, hb, _, _ => ⟨hb, by intro tr h; cases h⟩
  | tr :: rest, fs, hb, htr, hls => by
    have h1 := trainSchedStep_inv cap ls dt pick t len fs tr hb
      (htr tr (List.mem_cons_self tr rest)).1 (htr tr (List.mem_cons_self tr rest)).2 hls
    have h2 := schedPhase_inv cap ls dt pick t len rest
      (trainSchedStep cap ls dt pick t len fs tr).2 h1.1
      (fun tr' h => htr tr' (List.mem_cons_of_mem tr h)) hls
    simp only [schedPhase]
    refine ⟨h2.1, ?_⟩
    intro tr' h
    rcases List.mem_cons.1 h with rfl | h'
    · exact ⟨h1.2.1, h1.2.2⟩
    · exact h2.2 tr' h'

theorem schedPhase_inputs (cap ls dt : ℚ)
    (pick : List (Id × ℕ × FactoryIo) → Option (Id × ℕ × FactoryIo))
    (t : Tracks) (len : Vec2 → Vec2 → ℚ) :
    ∀ (trains : List Train) (fs : List Factory),
      InputsNonneg fs → (∀ tr ∈ trains, 0 ≤ tr.amount) → 0 ≤ ls * dt →
      InputsNonneg (schedPhase cap ls dt pick t len trains fs).2
  | [], fs, hi, _, _ => hi
  | tr :: rest, fs, hi, htr, hls => by
    have h1 := trainSchedStep_inputs cap ls dt pick t len fs tr hi
      (htr tr (List.mem_cons_self tr rest)) hls
    have h2 := schedPhase_inputs cap ls dt pick t len rest
      (trainSchedStep cap ls dt pick t len fs tr).2 h1
      (fun tr' h => htr tr' (List.mem_cons_of_mem tr h)) hls
    simpa only [schedPhase] using h2

/-- Claim C5: input-port buffers that are non-negative before a tick
are still non-negative after it, for any `deltaTime ≥ 0` — the flow
engine clamps at zero instead of erroring, and train unloads only add
non-negative amounts.  Ambient invariants of the running system
(non-negative train cargo, non-negative load speed) appear as
hypotheses. -/
theorem C5_input_buffers_nonneg :
    ∀ (types : List (List FactoryIoConfig)) (cap ls speed : ℚ)
      (pick : List (Id × ℕ × FactoryIo) → Option (Id × ℕ × FactoryIo))
      (len : Vec2 → Vec2 → ℚ) (g : Game) (dt : ℚ),
      InputsNonneg g.factories → (∀ tr ∈ g.trains, 0 ≤ tr.amount) →
      0 ≤ ls → 0 ≤ dt →
      InputsNonneg (Game.update types cap ls speed pick len g dt).factories := by
  intro types cap ls speed pick len g dt hi htr hls hdt
  simp only [Game.update]
  apply schedPhase_inputs cap ls dt pick g.tracks len g.trains _ ?_ htr
    (mul_nonneg hls hdt)
  intro f hf io hio hty a ha
  rcases List.mem_map.1 hf with ⟨f₀, hf₀, rfl⟩
  exact flowFactory_inputsNonneg _ dt f₀ (fun io' h' => hi f₀ hf₀ io' h') io hio hty a ha

/-- Claim C6: at every tick boundary each train's cargo satisfies
`0 ≤ cargoAmount ≤ capacity`, assuming it held before the tick (with
`capacity > 0`): the unload step, the load step and the kinematic
advance all preserve the bounds.  Non-negative port buffers and
positive configured rates — the other standing invariants of the
system — appear as hypotheses because the load step is clamped by port
buffers. -/
theorem C6_cargo_bounds :
    ∀ (types : List (List FactoryIoConfig)) (cap ls speed : ℚ)
      (pick : List (Id × ℕ × FactoryIo) → Option (Id × ℕ × FactoryIo))
      (len : Vec2 → Vec2 → ℚ) (g : Game) (dt : ℚ),
      BuffersNonneg g.factories →
      (∀ cfg ∈ types, ∀ c ∈ cfg, ∀ s ∈ c.speed, 0 < s) →
      (∀ tr ∈ g.trains, 0 ≤ tr.amount ∧ tr.amount ≤ cap) →
      0 ≤ ls → 0 ≤ dt → 0 < cap →
      ∀ tr ∈ (Game.update types cap ls speed pick len g dt).trains,
        0 ≤ tr.amount ∧ tr.amount ≤ cap := by
  intro types cap ls speed pick len g dt hb hcfg htr hls hdt hcap
  simp only [Game.update]
  intro tr htrm
  rcases List.mem_map.1 htrm with ⟨tr₀, htr₀, rfl⟩
  rw [kinStep_amount]
  have hflow : BuffersNonneg (flowPhase types dt g.factories) := by
    intro f hf io hio a ha
    rcases List.mem_map.1 hf with ⟨f₀, hf₀, rfl⟩
    apply flowFactory_buffersNonneg _ dt f₀ hdt
      (fun io' h' => hb f₀ hf₀ io' h') ?_ io hio a ha
    intro c hc s hs
    cases hg : types.get? f₀.ty with
    | none =>
      rw [hg] at hc
      cases hc
    | some cfg =>
      rw [hg] at hc
      exact le_of_lt (hcfg cfg (List.get?_mem hg) c hc s hs)
  exact (schedPhase_inv cap ls dt pick g.tracks len g.trains _ hflow htr
    (mul_nonneg hls hdt)).2 tr₀ htr₀

/-- A one-factory one-train game used to witness the tick invariants. -/
def gW : Game := ⟨twoIsl, [trIdle], [catFac]⟩

/-- The factory-type catalog for `gW`: one output port, rate 1. -/
def typesW : List (List FactoryIoConfig) := [[⟨IoType.Output, 1, some 1⟩]]

/-- Claim C5 witness: the input-buffer invariant instantiated on a
concrete one-factory, one-train game. -/
theorem C5_witness :
    InputsNonneg (Game.update typesW 10 5 3 pickHead zeroLen gW 1).factories :=
  C5_input_buffers_nonneg typesW 10 5 3 pickHead zeroLen gW 1
    (by
      intro f hf io hio hty a ha
      rw [show gW.factories = [catFac] from rfl, List.mem_singleton] at hf
      subst hf
      rw [show catFac.io = [catPort] from rfl, List.mem_singleton] at hio
      subst hio
      simp [catPort] at hty)
    (by
      intro tr h
      rw [show gW.trains = [trIdle] from rfl, List.mem_singleton] at h
      subst h
      norm_num [trIdle])
    (by norm_num) (by norm_num)

/-- The cargo-bounds invariant of a train list (spec section 8). -/
def CargoInv (cap : ℚ) (trains : List Train) : Prop :=
  ∀ tr ∈ trains, 0 ≤ tr.amount ∧ tr.amount ≤ cap

/-- Claim C6 witness: the cargo-bounds invariant instantiated on the
same concrete game. -/
theorem C6_witness :
    CargoInv 10 (Game.update typesW 10 5 3 pickHead zeroLen gW 1).trains :=
  C6_cargo_bounds typesW 10 5 3 pickHead zeroLen gW 1
    (by
      intro f hf io hio a ha
      rw [show gW.factories = [catFac] from rfl, List.mem_singleton] at hf
      subst hf
      rw [show catFac.io = [catPort] from rfl, List.mem_singleton] at hio
      subst hio
      rw [show catPort.amount = some 1 from rfl, Option.mem_def,
        Option.some_inj] at ha
      rw [← ha]
      norm_num)
    (by
      intro cfg hcfg c hc s hs
      rw [show typesW = [[⟨IoType.Output, 1, some 1⟩]] from rfl,
        List.mem_singleton] at hcfg
      subst hcfg
      rw [List.mem_singleton] at hc
      subst hc
      simp only [Option.mem_def, Option.some_inj] at hs
      rw [← hs]
      norm_num)
    (by
      intro tr h
      rw [show gW.trains = [trIdle] from rfl, List.mem_singleton] at h
      subst h
      norm_num [trIdle])
    (by norm_num) (by norm_num) (by norm_num)

/-- `p` is a path from `a` to `b` in the track graph: non-empty, starts
at `a`, ends at `b`, and every consecutive pair is adjacent. -/
def IsPathBetween (t : Tracks) (a b : Id) (p : List Id) : Prop :=
  p.head? = some a ∧ p.getLast? = some b ∧ p.Chain' (fun u v => v ∈ t.adj u)

/-- Well-formed track graph: every connection references an existing
node (the source maintains this: `add_connection` unwraps both ends). -/
def Tracks.WF (t : Tracks) : Prop :=
  ∀ n ∈ t.nodes, ∀ c ∈ n.connections, c ∈ t.nodes.map (fun m => m.id)

theorem pathsAux_sound (adj : Id → List Id) (toN : Id) :
    ∀ (fuel : ℕ) (allowed : List Id) (cur : Id) (p : List Id),
      p ∈ pathsAux adj toN fuel allowed cur →
      p.head? = some cur ∧ p.getLast? = some toN ∧
        p.Chain' (fun u v => v ∈ adj u) := by
  intro fuel
  induction fuel with
  | zero =>
    intro allowed cur p hp
    rw [pathsAux] at hp
    split at hp
    · rename_i hc
      rw [List.mem_singleton] at hp
      subst hp
      exact ⟨rfl, by rw [hc]; rfl, List.chain'_singleton _⟩
    · cases hp
  | succ fuel ih =>
    intro allowed cur p hp
    rw [pathsAux] at hp
    split at hp
    · rename_i hc
      rw [List.mem_singleton] at hp
      subst hp
      exact ⟨rfl, by rw [hc]; rfl, List.chain'_singleton _⟩
    · rw [List.mem_flatMap] at hp
      rcases hp with ⟨n, hn, hq⟩
      rw [List.mem_map] at hq
      rcases hq with ⟨q, hq, rfl⟩
      have hmem := ih (allowed.erase n) n q hq
      refine ⟨rfl, ?_, ?_⟩
      · cases q with
        | nil => cases hmem.1
        | cons x q' =>
          rw [List.getLast?_cons_cons]
          exact hmem.2.1
      · rw [List.chain'_cons']
        refine ⟨?_, hmem.2.2⟩
        intro y hy
        rw [hmem.1, Option.mem_def, Option.some_inj] at hy
        rw [← hy]
        exact (List.mem_filter.1 hn).1

theorem pathsAux_complete (adj : Id → List Id) (toN : Id) :
    ∀ (q : List Id) (cur : Id) (fuel : ℕ) (allowed : List Id),
      (cur :: q).Chain' (fun u v => v ∈ adj u) →
      (cur :: q).getLast? = some toN →
      (cur :: q).Nodup →
      (∀ x ∈ q, x ∈ allowed) →
      q.length ≤ fuel →
      (cur :: q) ∈ pathsAux adj toN fuel allowed cur := by
  intro q
  induction q with
  | nil =>
    intro cur fuel allowed _ hlast _ _ _
    have hc : cur = toN := by simpa using hlast
    cases fuel with
    | zero =>
      rw [pathsAux, if_pos hc]
      exact List.mem_singleton.2 rfl
    | succ f =>
      rw [pathsAux, if_pos hc]
      exact List.mem_singleton.2 rfl
  | cons n rest ih =>
    intro cur fuel allowed hchain hlast hnodup hsub hlen
    have hlast' : (n :: rest).getLast? = some toN := by
      rw [List.getLast?_cons_cons] at hlast
      exact hlast
    have hcur_ne : cur ≠ toN := by
      intro hc
      have htmem : toN ∈ n :: rest := List.mem_of_getLast?_eq_some hlast'
      exact (List.nodup_cons.1 hnodup).1 (hc ▸ htmem)
    cases fuel with
    | zero => exact absurd hlen (by simp)
    | succ f =>
      rw [pathsAux, if_neg hcur_ne, List.mem_flatMap]
      refine ⟨n, ?_, ?_⟩
      · rw [List.mem_filter]
        refine ⟨(List.chain'_cons'.1 hchain).1 n rfl, ?_⟩
        have := hsub n (List.mem_cons_self n rest)
        simpa using this
      · rw [List.mem_map]
        refine ⟨n :: rest, ?_, rfl⟩
        apply ih n f (allowed.erase n)
        · exact (List.chain'_cons'.1 hchain).2
        · exact hlast'
        · exact List.Nodup.of_cons hnodup
        · intro x hx
          have hxa : x ∈ allowed := hsub x (List.mem_cons_of_mem n hx)
          have hxn : x ≠ n := by
            intro he
            subst he
            exact (List.nodup_cons.1 (List.Nodup.of_cons hnodup)).1 hx
          exact (List.mem_erase_of_ne hxn).2 hxa
        · exact Nat.succ_le_succ_iff.1 hlen

theorem pathCost_nonneg (t : Tracks) (len : Vec2 → Vec2 → ℚ)
    (hlen : ∀ u v, 0 ≤ len u v) : ∀ p, 0 ≤ t.pathCost len p := by
  intro p
  induction p with
  | nil => simp [Tracks.pathCost]
  | cons a q ih =>
    cases q with
    | nil => simp [Tracks.pathCost]
    | cons b rest =>
      rw [Tracks.pathCost]
      exact add_nonneg (hlen _ _) ih

theorem pathCost_append_cons (t : Tracks) (len : Vec2 → Vec2 → ℚ) :
    ∀ (l1 : List Id) (x : Id) (l2 : List Id),
      t.pathCost len (l1 ++ x :: l2)
        = t.pathCost len (l1 ++ [x]) + t.pathCost len (x :: l2)
  | [], x, l2 => by
    have h1 : t.pathCost len [x] = 0 := rfl
    show t.pathCost len (x :: l2) = t.pathCost len [x] + t.pathCost len (x :: l2)
    rw [h1, zero_add]
  | [y], x, l2 => by
    show t.pathCost len (y :: x :: l2) = t.pathCost len [y, x] + t.pathCost len (x :: l2)
    rw [Tracks.pathCost]
    have h2 : t.pathCost len [y, x] = len (t.posOr y) (t.posOr x) := by
      rw [Tracks.pathCost]
      simp [Tracks.pathCost]
    rw [h2]
  | y :: z :: l1, x, l2 => by
    have ih := pathCost_append_cons t len (z :: l1) x l2
    show t.pathCost len (y :: z :: (l1 ++ x :: l2))
      = t.pathCost len (y :: z :: (l1 ++ [x])) + t.pathCost len (x :: l2)
    rw [Tracks.pathCost]
    show len (t.posOr y) (t.posOr z) + t.pathCost len ((z :: l1) ++ x :: l2) = _
    rw [ih, Tracks.pathCost]
    show _ = len (t.posOr y) (t.posOr z) + t.pathCost len ((z :: l1) ++ [x])
      + t.pathCost len (x :: l2)
    ring

theorem exists_dup_decomp : ∀ (l : List Id), ¬ l.Nodup →
    ∃ l1 x l2 l3, l = l1 ++ x :: (l2 ++ x :: l3)
  | [], h => absurd List.nodup_nil h
  | y :: tl, h => by
    by_cases hy : y ∈ tl
    · rcases List.append_of_mem hy with ⟨s, u, rfl⟩
      exact ⟨[], y, s, u, rfl⟩
    · have ht : ¬ tl.Nodup := fun hnd => h (List.nodup_cons.2 ⟨hy, hnd⟩)
      rcases exists_dup_decomp tl ht with ⟨l1, x, l2, l3, rfl⟩
      exact ⟨y :: l1, x, l2, l3, rfl⟩

theorem exists_nodup_path (t : Tracks) (len : Vec2 → Vec2 → ℚ)
    (hlen : ∀ u v, 0 ≤ len u v) (a b : Id) :
    ∀ (m : ℕ) (q : List Id), q.length ≤ m → IsPathBetween t a b q →
      ∃ q', IsPathBetween t a b q' ∧ q'.Nodup ∧
        t.pathCost len q' ≤ t.pathCost len q := by
  intro m
  induction m with
  | zero =>
    intro q hlq hq
    cases q with
    | nil => cases hq.1
    | cons x q' => exact absurd hlq (by simp)
  | succ m ih =>
    intro q hlq hq
    by_cases hnd : q.Nodup
    · exact ⟨q, hq, hnd, le_refl _⟩
    · rcases exists_dup_decomp q hnd with ⟨l1, x, l2, l3, rfl⟩
      rcases hq with ⟨hhead, hlast, hchain⟩
      have hview : x :: (l2 ++ x :: l3) = (x :: l2) ++ (x :: l3) := rfl
      have hl3 : ∃ w, (x :: l3).getLast? = some w := by
        cases h : (x :: l3).getLast? with
        | none => simp at h
        | some w => exact ⟨w, rfl⟩
      rcases hl3 with ⟨w, hw⟩
      -- the shortcut that skips the cycle between the two occurrences of x
      have hq₀ : IsPathBetween t a b (l1 ++ x :: l3) := by
        refine ⟨?_, ?_, ?_⟩
        · cases l1 with
          | nil => exact hhead
          | cons y l1' => exact hhead
        · rw [List.getLast?_append, hview, List.getLast?_append, hw,
            Option.or_some] at hlast
          rw [List.getLast?_append, hw]
          exact hlast
        · rw [List.chain'_append] at hchain
        
          rcases hchain with ⟨hc1, hc2, hlink⟩
          rw [hview, List.chain'_append] at hc2
          rw [List.chain'_append]
          exact ⟨hc1, hc2.2.1, by
            intro u hu v hv
            exact hlink u hu v (by simpa using hv)⟩
      have hcost : t.pathCost len (l1 ++ x :: l3)
          ≤ t.pathCost len (l1 ++ x :: (l2 ++ x :: l3)) := by
        have e1 : t.pathCost len (l1 ++ x :: (l2 ++ x :: l3))
            = t.pathCost len (l1 ++ [x]) + t.pathCost len (x :: (l2 ++ x :: l3)) :=
          pathCost_append_cons t len l1 x (l2 ++ x :: l3)
        have e2 : t.pathCost len (x :: (l2 ++ x :: l3))
            = t.pathCost len ((x :: l2) ++ [x]) + t.pathCost len (x :: l3) :=
          pathCost_append_cons t len (x :: l2) x l3
        have e3 : t.pathCost len (l1 ++ x :: l3)
            = t.pathCost len (l1 ++ [x]) + t.pathCost len (x :: l3) :=
          pathCost_append_cons t len l1 x l3
        have hmid : 0 ≤ t.pathCost len ((x :: l2) ++ [x]) :=
          pathCost_nonneg t len hlen _
        rw [e1, e2, e3]
        linarith
      have hlen' : (l1 ++ x :: l3).length ≤ m := by
        simp only [List.length_append, List.length_cons] at hlq ⊢
        omega
      rcases ih (l1 ++ x :: l3) hlen' hq₀ with ⟨q', hq', hnd', hle'⟩
      exact ⟨q', hq', hnd', le_trans hle' hcost⟩

theorem adj_sub_ids (t : Tracks) (hwf : Tracks.WF t) (u : Id) :
    ∀ x ∈ t.adj u, x ∈ t.nodes.map (fun n => n.id) := by
  intro x hx
  unfold Tracks.adj Tracks.get at hx
  cases hfind : t.nodes.find? (fun n => n.id == u) with
  | none =>
    rw [hfind] at hx
    exact absurd hx (List.not_mem_nil x)
  | some nd =>
    rw [hfind] at hx
    exact hwf nd (List.mem_of_find?_eq_some hfind) x hx

theorem chain'_tail_adj (t : Tracks) :
    ∀ (l : List Id), l.Chain' (fun u v => v ∈ t.adj u) →
      ∀ x ∈ l.tail, ∃ u, x ∈ t.adj u := by
  intro l
  induction l with
  | nil =>
    intro _ x hx
    cases hx
  | cons c q ih =>
    intro hchain x hx
    cases q with
    | nil => cases hx
    | cons n rest =>
      rcases List.mem_cons.1 hx with rfl | hx'
      · exact ⟨c, (List.chain'_cons.1 hchain).1⟩
      · exact ih (List.chain'_cons.1 hchain).2 x hx'

theorem nodup_path_mem_pathsAux (t : Tracks) (a b : Id) (hwf : Tracks.WF t) :
    ∀ q, IsPathBetween t a b q → q.Nodup →
      q ∈ pathsAux t.adj b ((t.nodes.map (fun n => n.id)).erase a).length
        ((t.nodes.map (fun n => n.id)).erase a) a := by
  intro q hq hnd
  rcases hq with ⟨hhead, hlast, hchain⟩
  cases q with
  | nil => cases hhead
  | cons c tail =>
    have hca : c = a := by simpa using hhead
    subst hca
    have hsubset : ∀ x ∈ tail, x ∈ (t.nodes.map (fun n => n.id)).erase c := by
      intro x hx
      rcases chain'_tail_adj t (c :: tail) hchain x hx with ⟨u, hu⟩
      have hid : x ∈ t.nodes.map (fun n => n.id) := adj_sub_ids t hwf u x hu
      have hxa : x ≠ c := fun he => (List.nodup_cons.1 hnd).1 (he ▸ hx)
      exact (List.mem_erase_of_ne hxa).2 hid
    apply pathsAux_complete
    · exact hchain
    · exact hlast
    · exact hnd
    · exact hsubset
    · exact (List.subperm_of_subset (List.Nodup.of_cons hnd) hsubset).length_le

theorem pathfind_spec (t : Tracks) (len : Vec2 → Vec2 → ℚ) (a b : Id)
    (hwf : Tracks.WF t) (hlen : ∀ u v, 0 ≤ len u v) :
    (∀ p, t.pathfind len a b = some p →
      IsPathBetween t a b p ∧
      ∀ q, IsPathBetween t a b q → t.pathCost len p ≤ t.pathCost len q) ∧
    (t.pathfind len a b = none ↔ ∀ q, ¬ IsPathBetween t a b q) := by
  constructor
  · intro p hp
    simp only [Tracks.pathfind] at hp
    have hmem : p ∈ pathsAux t.adj b ((t.nodes.map (fun n => n.id)).erase a).length
        ((t.nodes.map (fun n => n.id)).erase a) a := List.argmin_mem hp
    have hsound := pathsAux_sound t.adj b _ _ a p hmem
    refine ⟨⟨hsound.1, hsound.2.1, hsound.2.2⟩, ?_⟩
    intro q hq
    rcases exists_nodup_path t len hlen a b q.length q (le_refl _) hq with
      ⟨q', hq', hnd', hle'⟩
    have hmem' := nodup_path_mem_pathsAux t a b hwf q' hq' hnd'
    exact le_trans (List.le_of_mem_argmin hmem' hp) hle'
  · constructor
    · intro hnone q hq
      simp only [Tracks.pathfind] at hnone
      rcases exists_nodup_path t len hlen a b q.length q (le_refl _) hq with
        ⟨q', hq', hnd', _⟩
      have hmem' := nodup_path_mem_pathsAux t a b hwf q' hq' hnd'
      rw [List.argmin_eq_none.1 hnone] at hmem'
      cases hmem'
    · intro hall
      cases hp : t.pathfind len a b with
      | none => rfl
      | some p =>
        simp only [Tracks.pathfind] at hp
        have hmem : p ∈ pathsAux t.adj b ((t.nodes.map (fun n => n.id)).erase a).length
            ((t.nodes.map (fun n => n.id)).erase a) a := List.argmin_mem hp
        have hsound := pathsAux_sound t.adj b _ _ a p hmem
        exact absurd ⟨hsound.1, hsound.2.1, hsound.2.2⟩ (hall p)

/-- Scenario 1 track graph: A(0,0), B(10,0), C(10,10) with edges A-B and
B-C (node ids 0, 1, 2). -/
def abcTracks : Tracks :=
  ⟨[⟨0, ⟨0, 0⟩, [1]⟩, ⟨1, ⟨10, 0⟩, [0, 2]⟩, ⟨2, ⟨10, 10⟩, [1]⟩]⟩

/-- The length function for the scenario: both graph edges (A-B and
B-C) have Euclidean length 10, so the constant function agrees with the
Euclidean distance on every pair of positions the run evaluates. -/
def abcLen : Vec2 → Vec2 → ℚ := fun _ _ => 10

/-- Claim C3 counterexample: the `pathfinding` crate's astar — and so
`Tracks::pathfind` — returns the path *including* the start node:
`findPath(A, C)` is `[A, B, C]`, not the claimed `[B, C]`. -/
theorem C3_counterexample :
    Tracks.pathfind abcTracks abcLen 0 2 = some [0, 1, 2] ∧
    Tracks.pathfind abcTracks abcLen 0 2 ≠ some [1, 2] := by
  constructor
  · decide
  · decide

/-- Claim C3 (amended): for every pair of existing nodes in a
well-formed graph, `findPath(a, b)` returns, when `b` is reachable, an
ordered node sequence that *starts at `a`* and ends at `b`, follows
graph edges, and has minimal total length among all such paths; it
returns none exactly when `b` is unreachable.  In the scenario,
`findPath(A, C) = [A, B, C]` with total length 20. -/
theorem C3_amended :
    (∀ (t : Tracks) (len : Vec2 → Vec2 → ℚ) (a b : Id),
      Tracks.WF t → (∀ u v, 0 ≤ len u v) →
      (∀ p, t.pathfind len a b = some p →
        IsPathBetween t a b p ∧
        ∀ q, IsPathBetween t a b q → t.pathCost len p ≤ t.pathCost len q) ∧
      (t.pathfind len a b = none ↔ ∀ q, ¬ IsPathBetween t a b q)) ∧
    Tracks.pathfind abcTracks abcLen 0 2 = some [0, 1, 2] ∧
    Tracks.pathCost abcTracks abcLen [0, 1, 2] = 20 := by
  refine ⟨fun t len a b hwf hlen => pathfind_spec t len a b hwf hlen, ?_, ?_⟩
  · decide
  · norm_num [Tracks.pathCost, abcLen]

/-- Claim C3 witness: the amended router contract applied to the
scenario graph. -/
theorem C3_witness :
    (∀ p, Tracks.pathfind abcTracks abcLen 0 2 = some p →
      IsPathBetween abcTracks 0 2 p ∧
      ∀ q, IsPathBetween abcTracks 0 2 q →
        Tracks.pathCost abcTracks abcLen p ≤ Tracks.pathCost abcTracks abcLen q) ∧
    (Tracks.pathfind abcTracks abcLen 0 2 = none ↔
      ∀ q, ¬ IsPathBetween abcTracks 0 2 q) :=
  C3_amended.1 abcTracks abcLen 0 2 (by unfold Tracks.WF; decide)
    (fun u v => by norm_num [abcLen])

end Tracktorio